import Mathlib

/-!
# Index-space conversion of `annotator_jni.cc`

A shallow embedding of `ConvertIndicesBMPUTF8` (and its two wrappers
`ConvertIndicesBMPToUTF8`, `ConvertIndicesUTF8ToBMP`) from
`src/annotator/annotator_jni.cc`, together with proofs of the spec's
properties of the converter.

The C++ function first decodes the UTF-8 byte string into a sequence of
Unicode scalar values (`UTF8ToUnicodeText`) and then only ever iterates over
that sequence of scalar values.  We therefore model the text as the decoded
sequence: a `List Nat` of Unicode scalar values.  C++ `int` counters and
span endpoints are modelled as `Int` (no counter can overflow for any text a
caller can materialise, and no claim concerns overflow behaviour).
-/

namespace Annotator

/-- `CodepointSpan` is `std::pair<int, int>` in the source. -/
structure CodepointSpan where
  first : Int
  second : Int
deriving DecidableEq, Repr

/-- The body of the `assign_indices_fn` lambda of `ConvertIndicesBMPUTF8`:
compare each endpoint of `orig_indices` with the current source counter and,
on a match, record the current target counter.  `from_utf8` selects which of
the two counters (`unicode_index`, `bmp_index`) is source and which target,
exactly as the pointer setup at the top of the C++ function does. -/
def assignIndicesFn (orig_indices : CodepointSpan) (from_utf8 : Bool)
    (unicode_index bmp_index : Int) (result : CodepointSpan) : CodepointSpan :=
  let source_index : Int := if from_utf8 then unicode_index else bmp_index
  let target_index : Int := if from_utf8 then bmp_index else unicode_index
  { first := if orig_indices.first = source_index then target_index else result.first
    second := if orig_indices.second = source_index then target_index else result.second }

/-- The `for` loop of `ConvertIndicesBMPUTF8`: at each character the current
counters are compared (`assign_indices_fn()`), then `bmp_index` is bumped an
extra time for a scalar value above `0xFFFF`, and both counters are advanced
by the loop header.  After the loop one final `assign_indices_fn()` runs. -/
def convertLoop (orig_indices : CodepointSpan) (from_utf8 : Bool) :
    List Nat → Int → Int → CodepointSpan → CodepointSpan
  | [], unicode_index, bmp_index, result =>
      assignIndicesFn orig_indices from_utf8 unicode_index bmp_index result
  | c :: rest, unicode_index, bmp_index, result =>
      convertLoop orig_indices from_utf8 rest (unicode_index + 1)
        (bmp_index + (if 0xFFFF < c then 1 else 0) + 1)
        (assignIndicesFn orig_indices from_utf8 unicode_index bmp_index result)

/-- `ConvertIndicesBMPUTF8` of `annotator_jni.cc`, on the decoded text. -/
def ConvertIndicesBMPUTF8 (utf8_str : List Nat) (orig_indices : CodepointSpan)
    (from_utf8 : Bool) : CodepointSpan :=
  convertLoop orig_indices from_utf8 utf8_str 0 0 ⟨-1, -1⟩

/-- `ConvertIndicesBMPToUTF8`: UTF-16 (BMP) indices to codepoint indices. -/
def ConvertIndicesBMPToUTF8 (utf8_str : List Nat)
    (bmp_indices : CodepointSpan) : CodepointSpan :=
  ConvertIndicesBMPUTF8 utf8_str bmp_indices false

/-- `ConvertIndicesUTF8ToBMP`: codepoint indices to UTF-16 (BMP) indices. -/
def ConvertIndicesUTF8ToBMP (utf8_str : List Nat)
    (utf8_indices : CodepointSpan) : CodepointSpan :=
  ConvertIndicesBMPUTF8 utf8_str utf8_indices true

/-!
## Reference definition from the specification

`specScan`, `specResolveEndpoint` and `specConvert` follow the words of the
spec's §4.1 contract: the decoded text is scanned once while a codepoint
counter (+1 per scalar value) and a UTF-16 counter (+1 per scalar value, plus
an additional +1 for a scalar value above `0xFFFF`) advance together, the
pair of counter values is inspected at every iteration boundary (initial and
final boundaries included), and an endpoint equal to the source counter has
the target counter recorded; an endpoint that never matches remains `-1`.
-/

/-- The list of `(codepoint counter, UTF-16 counter)` pairs at every
iteration boundary of a single scan, starting from counters `(cp, u16)`. -/
def specScan : List Nat → Int → Int → List (Int × Int)
  | [], cp, u16 => [(cp, u16)]
  | c :: rest, cp, u16 =>
      (cp, u16) :: specScan rest (cp + 1) (u16 + 1 + (if 0xFFFF < c then 1 else 0))

/-- Resolve one endpoint against the scanned boundaries: at each boundary, if
the endpoint equals the source counter, record the target counter; start from
the sentinel `-1`.  `toUtf16 = true` uses the codepoint counter as source. -/
def specResolveEndpoint (toUtf16 : Bool) (e : Int) (bs : List (Int × Int)) : Int :=
  bs.foldl
    (fun acc p =>
      if e = (if toUtf16 then p.1 else p.2) then (if toUtf16 then p.2 else p.1) else acc)
    (-1)

/-- The spec's `Convert`: each endpoint of the span resolved independently
against the boundaries of one scan of the text. -/
def specConvert (text : List Nat) (span : CodepointSpan) (toUtf16 : Bool) : CodepointSpan :=
  { first := specResolveEndpoint toUtf16 span.first (specScan text 0 0)
    second := specResolveEndpoint toUtf16 span.second (specScan text 0 0) }

/-!
## Single-endpoint view and index-space offsets

The two output endpoints of `ConvertIndicesBMPUTF8` are computed
independently; `convertOne` is the loop restricted to one endpoint, and
`utf16Offset text j` is the UTF-16 length of the first `j` codepoints.
-/

/-- The loop of `ConvertIndicesBMPUTF8` restricted to a single endpoint `e`:
`acc` is the endpoint's current output value. -/
def convertOneLoop (e : Int) (from_utf8 : Bool) : List Nat → Int → Int → Int → Int
  | [], u, b, acc =>
      if e = (if from_utf8 then u else b) then (if from_utf8 then b else u) else acc
  | c :: rest, u, b, acc =>
      convertOneLoop e from_utf8 rest (u + 1) (b + (if 0xFFFF < c then 1 else 0) + 1)
        (if e = (if from_utf8 then u else b) then (if from_utf8 then b else u) else acc)

/-- One endpoint converted by a full scan of the text. -/
def convertOne (text : List Nat) (e : Int) (from_utf8 : Bool) : Int :=
  convertOneLoop e from_utf8 text 0 0 (-1)

/-- Number of UTF-16 code units occupied by the first `j` scalar values. -/
def utf16Offset : List Nat → Nat → Int
  | [], _ => 0
  | _ :: _, 0 => 0
  | c :: rest, j + 1 => (if 0xFFFF < c then 1 else 0) + 1 + utf16Offset rest j

/-- UTF-16 length of the whole text. -/
def utf16Length (text : List Nat) : Int := utf16Offset text text.length

/-- Value of the source counter at iteration boundary `j`. -/
def srcOffset (text : List Nat) (from_utf8 : Bool) (j : Nat) : Int :=
  if from_utf8 then (j : Int) else utf16Offset text j

/-- Value of the target counter at iteration boundary `j`. -/
def tgtOffset (text : List Nat) (from_utf8 : Bool) (j : Nat) : Int :=
  if from_utf8 then utf16Offset text j else (j : Int)

/-- Length of the text in the source index space. -/
def srcLen (text : List Nat) (from_utf8 : Bool) : Int :=
  srcOffset text from_utf8 text.length

/-- Length of the text in the target index space. -/
def tgtLen (text : List Nat) (from_utf8 : Bool) : Int :=
  tgtOffset text from_utf8 text.length

theorem utf16Offset_nonneg (text : List Nat) (j : Nat) : 0 ≤ utf16Offset text j := by
  induction text generalizing j with
  | nil => simp [utf16Offset]
  | cons c rest ih =>
    cases j with
    | zero => simp [utf16Offset]
    | succ j =>
      have := ih j
      by_cases hc : 0xFFFF < c <;> simp [utf16Offset, hc] <;> omega

theorem utf16Offset_zero (text : List Nat) : utf16Offset text 0 = 0 := by
  cases text <;> rfl

theorem utf16Offset_mono (text : List Nat) {j k : Nat} (h : j ≤ k) :
    utf16Offset text j ≤ utf16Offset text k := by
  induction text generalizing j k with
  | nil => simp [utf16Offset]
  | cons c rest ih =>
    cases j with
    | zero =>
      have h1 := utf16Offset_nonneg (c :: rest) k
      simp [utf16Offset_zero] at *
      omega
    | succ j =>
      cases k with
      | zero => omega
      | succ k =>
        have := ih (Nat.succ_le_succ_iff.mp h)
        by_cases hc : 0xFFFF < c <;> simp [utf16Offset, hc] <;> omega

theorem utf16Offset_strictMono (text : List Nat) {j k : Nat} (h : j < k)
    (hk : k ≤ text.length) : utf16Offset text j < utf16Offset text k := by
  induction text generalizing j k with
  | nil => simp at hk; omega
  | cons c rest ih =>
    cases k with
    | zero => omega
    | succ k =>
      cases j with
      | zero =>
        have h1 := utf16Offset_nonneg rest k
        by_cases hc : 0xFFFF < c <;> simp [utf16Offset, hc] <;> omega
      | succ j =>
        have := ih (Nat.succ_lt_succ_iff.mp h) (by simpa using hk)
        by_cases hc : 0xFFFF < c <;> simp [utf16Offset, hc] <;> omega

theorem utf16Offset_succ (text : List Nat) (j : Nat) (hj : j < text.length) :
    utf16Offset text (j + 1) =
      utf16Offset text j + ((if 0xFFFF < text[j] then 1 else 0) + 1) := by
  induction text generalizing j with
  | nil => simp at hj
  | cons c rest ih =>
    cases j with
    | zero => simp [utf16Offset, utf16Offset_zero]
    | succ j =>
      have := ih j (by simpa using hj)
      simp only [utf16Offset, List.getElem_cons_succ]
      omega

theorem utf16Offset_of_bmp (text : List Nat) (h : ∀ c ∈ text, c ≤ 0xFFFF)
    (j : Nat) (hj : j ≤ text.length) : utf16Offset text j = j := by
  induction text generalizing j with
  | nil => simp at hj; simp [hj, utf16Offset]
  | cons c rest ih =>
    cases j with
    | zero => simp [utf16Offset]
    | succ j =>
      have hc : ¬ 0xFFFF < c := by
        have := h c (List.mem_cons_self c rest)
        omega
      have := ih (fun x hx => h x (List.mem_cons_of_mem c hx)) j (by simpa using hj)
      simp [utf16Offset, hc, this]
      omega

/-!
## Characterisation of the scan loop
-/

/-- The two output endpoints are computed independently: the full loop is the
pair of single-endpoint loops. -/
theorem convertLoop_eq_pair (orig : CodepointSpan) (d : Bool) (text : List Nat)
    (u b : Int) (r : CodepointSpan) :
    convertLoop orig d text u b r =
      { first := convertOneLoop orig.first d text u b r.first
        second := convertOneLoop orig.second d text u b r.second } := by
  induction text generalizing u b r with
  | nil => simp [convertLoop, convertOneLoop, assignIndicesFn]
  | cons c rest ih => simp [convertLoop, convertOneLoop, assignIndicesFn, ih]

/-- `ConvertIndicesBMPUTF8` as a pair of single-endpoint conversions. -/
theorem convert_eq_pair (text : List Nat) (s : CodepointSpan) (d : Bool) :
    ConvertIndicesBMPUTF8 text s d =
      { first := convertOne text s.first d, second := convertOne text s.second d } := by
  simp [ConvertIndicesBMPUTF8, convertOne, convertLoop_eq_pair]

theorem convertOneLoop_true_nil (e u b acc : Int) :
    convertOneLoop e true [] u b acc = if e = u then b else acc := by
  simp [convertOneLoop]

theorem convertOneLoop_true_cons (e : Int) (c : Nat) (rest : List Nat) (u b acc : Int) :
    convertOneLoop e true (c :: rest) u b acc =
      convertOneLoop e true rest (u + 1) (b + (if 0xFFFF < c then 1 else 0) + 1)
        (if e = u then b else acc) := by
  simp [convertOneLoop]

theorem convertOneLoop_false_nil (e u b acc : Int) :
    convertOneLoop e false [] u b acc = if e = b then u else acc := by
  simp [convertOneLoop]

theorem convertOneLoop_false_cons (e : Int) (c : Nat) (rest : List Nat) (u b acc : Int) :
    convertOneLoop e false (c :: rest) u b acc =
      convertOneLoop e false rest (u + 1) (b + (if 0xFFFF < c then 1 else 0) + 1)
        (if e = b then u else acc) := by
  simp [convertOneLoop]

/-- In the codepoint-source direction, an endpoint matching no boundary
leaves the accumulator untouched. -/
theorem convertOneLoop_true_nomatch (text : List Nat) (e u b acc : Int)
    (h : ∀ j : Nat, j ≤ text.length → e ≠ u + j) :
    convertOneLoop e true text u b acc = acc := by
  induction text generalizing u b acc with
  | nil =>
    have h0 : e ≠ u := by have := h 0 (by simp); simpa using this
    rw [convertOneLoop_true_nil, if_neg h0]
  | cons c rest ih =>
    have h0 : e ≠ u := by have := h 0 (by simp); simpa using this
    rw [convertOneLoop_true_cons, if_neg h0]
    refine ih (u + 1) _ acc ?_
    intro i hi
    have := h (i + 1) (by simpa using Nat.succ_le_succ hi)
    push_cast at this ⊢
    omega

/-- In the codepoint-source direction, the endpoint `u + j` resolves to the
UTF-16 counter at boundary `j`. -/
theorem convertOneLoop_true_match (text : List Nat) (j : Nat) (hj : j ≤ text.length)
    (u b acc : Int) :
    convertOneLoop (u + (j : Int)) true text u b acc = b + utf16Offset text j := by
  induction text generalizing j u b acc with
  | nil =>
    have hj0 : j = 0 := by simpa using hj
    subst hj0
    rw [convertOneLoop_true_nil, Nat.cast_zero, add_zero, if_pos rfl]
    simp [utf16Offset]
  | cons c rest ih =>
    cases j with
    | zero =>
      have hnm : ∀ i : Nat, i ≤ rest.length → u ≠ (u + 1) + (i : Int) := by
        intro i hi
        omega
      rw [Nat.cast_zero, add_zero, convertOneLoop_true_cons, if_pos rfl,
        convertOneLoop_true_nomatch rest u (u + 1)
          (b + (if 0xFFFF < c then 1 else 0) + 1) b hnm,
        utf16Offset_zero, add_zero]
    | succ j =>
      have hj' : j ≤ rest.length := by simpa using hj
      have hne : u + ((j + 1 : Nat) : Int) ≠ u := by push_cast; omega
      rw [convertOneLoop_true_cons, if_neg hne]
      have harg : u + ((j + 1 : Nat) : Int) = (u + 1) + (j : Int) := by push_cast; ring
      rw [harg, ih j hj' (u + 1) (b + (if 0xFFFF < c then 1 else 0) + 1) acc]
      simp only [utf16Offset]
      ring

/-- In the UTF-16-source direction, an endpoint matching no boundary leaves
the accumulator untouched. -/
theorem convertOneLoop_false_nomatch (text : List Nat) (e u b acc : Int)
    (h : ∀ j : Nat, j ≤ text.length → e ≠ b + utf16Offset text j) :
    convertOneLoop e false text u b acc = acc := by
  induction text generalizing u b acc with
  | nil =>
    have h0 : e ≠ b := by
      have := h 0 (by simp)
      rwa [utf16Offset_zero, add_zero] at this
    rw [convertOneLoop_false_nil, if_neg h0]
  | cons c rest ih =>
    have h0 : e ≠ b := by
      have := h 0 (by simp)
      rwa [utf16Offset_zero, add_zero] at this
    rw [convertOneLoop_false_cons, if_neg h0]
    refine ih (u + 1) _ acc ?_
    intro i hi
    have hi1 := h (i + 1) (by simpa using Nat.succ_le_succ hi)
    simp only [utf16Offset] at hi1
    intro heq
    exact hi1 (by rw [heq]; ring)

/-- In the UTF-16-source direction, the endpoint `b + utf16Offset text j`
resolves to the codepoint counter at boundary `j`. -/
theorem convertOneLoop_false_match (text : List Nat) (j : Nat) (hj : j ≤ text.length)
    (u b acc : Int) :
    convertOneLoop (b + utf16Offset text j) false text u b acc = u + j := by
  induction text generalizing j u b acc with
  | nil =>
    have hj0 : j = 0 := by simpa using hj
    subst hj0
    rw [utf16Offset_zero, add_zero, convertOneLoop_false_nil, if_pos rfl, Nat.cast_zero,
      add_zero]
  | cons c rest ih =>
    cases j with
    | zero =>
      have hnm : ∀ i : Nat, i ≤ rest.length →
          b ≠ (b + (if 0xFFFF < c then 1 else 0) + 1) + utf16Offset rest i := by
        intro i hi
        have h1 := utf16Offset_nonneg rest i
        by_cases hc : 0xFFFF < c <;> simp [hc] <;> omega
      rw [utf16Offset_zero, add_zero, convertOneLoop_false_cons, if_pos rfl,
        convertOneLoop_false_nomatch rest b (u + 1)
          (b + (if 0xFFFF < c then 1 else 0) + 1) u hnm,
        Nat.cast_zero, add_zero]
    | succ j =>
      have hj' : j ≤ rest.length := by simpa using hj
      have h1 := utf16Offset_nonneg rest j
      have harg : b + utf16Offset (c :: rest) (j + 1) =
          (b + (if 0xFFFF < c then 1 else 0) + 1) + utf16Offset rest j := by
        simp only [utf16Offset]; ring
      have hne : b + utf16Offset (c :: rest) (j + 1) ≠ b := by
        rw [harg]
        by_cases hc : 0xFFFF < c <;> simp [hc] <;> omega
      rw [convertOneLoop_false_cons, if_neg hne, harg,
        ih j hj' (u + 1) (b + (if 0xFFFF < c then 1 else 0) + 1) acc]
      push_cast
      ring

/-- Direction-generic resolution: boundary `j`'s source value resolves to
boundary `j`'s target value. -/
theorem convertOne_match (text : List Nat) (d : Bool) (j : Nat) (hj : j ≤ text.length) :
    convertOne text (srcOffset text d j) d = tgtOffset text d j := by
  cases d with
  | true =>
    have := convertOneLoop_true_match text j hj 0 0 (-1)
    simpa [convertOne, srcOffset, tgtOffset] using this
  | false =>
    have := convertOneLoop_false_match text j hj 0 0 (-1)
    simpa [convertOne, srcOffset, tgtOffset] using this

/-- Direction-generic: an endpoint equal to no boundary's source value stays
at the sentinel `-1`. -/
theorem convertOne_nomatch (text : List Nat) (d : Bool) (e : Int)
    (h : ∀ j : Nat, j ≤ text.length → e ≠ srcOffset text d j) :
    convertOne text e d = -1 := by
  cases d with
  | true =>
    exact convertOneLoop_true_nomatch text e 0 0 (-1) (fun j hj => by
      have := h j hj
      simpa [srcOffset] using this)
  | false =>
    exact convertOneLoop_false_nomatch text e 0 0 (-1) (fun j hj => by
      have := h j hj
      simpa [srcOffset] using this)

/-- An endpoint that resolved to something other than `-1` is some boundary's
source value, and the output is that boundary's target value. -/
theorem convertOne_resolved (text : List Nat) (d : Bool) (e : Int)
    (h : convertOne text e d ≠ -1) :
    ∃ j : Nat, j ≤ text.length ∧ e = srcOffset text d j ∧
      convertOne text e d = tgtOffset text d j := by
  by_cases hm : ∀ j : Nat, j ≤ text.length → e ≠ srcOffset text d j
  · exact absurd (convertOne_nomatch text d e hm) h
  · push_neg at hm
    obtain ⟨j, hj, hje⟩ := hm
    exact ⟨j, hj, hje, by rw [hje]; exact convertOne_match text d j hj⟩

theorem srcOffset_nonneg (text : List Nat) (d : Bool) (j : Nat) :
    0 ≤ srcOffset text d j := by
  cases d <;> simp [srcOffset, utf16Offset_nonneg]

theorem tgtOffset_nonneg (text : List Nat) (d : Bool) (j : Nat) :
    0 ≤ tgtOffset text d j := by
  cases d <;> simp [tgtOffset, utf16Offset_nonneg]

theorem srcOffset_mono (text : List Nat) (d : Bool) {j k : Nat} (h : j ≤ k) :
    srcOffset text d j ≤ srcOffset text d k := by
  cases d <;> simp [srcOffset, utf16Offset_mono text h]
  omega

theorem tgtOffset_mono (text : List Nat) (d : Bool) {j k : Nat} (h : j ≤ k) :
    tgtOffset text d j ≤ tgtOffset text d k := by
  cases d <;> simp [tgtOffset, utf16Offset_mono text h]
  omega

theorem srcOffset_strictMono (text : List Nat) (d : Bool) {j k : Nat} (h : j < k)
    (hk : k ≤ text.length) : srcOffset text d j < srcOffset text d k := by
  cases d <;> simp [srcOffset, utf16Offset_strictMono text h hk]
  omega

theorem tgtOffset_strictMono (text : List Nat) (d : Bool) {j k : Nat} (h : j < k)
    (hk : k ≤ text.length) : tgtOffset text d j < tgtOffset text d k := by
  cases d <;> simp [tgtOffset, utf16Offset_strictMono text h hk]
  omega

/-- The spec's fold over the scanned boundaries computes exactly the code's
single-endpoint loop, for any starting counters and accumulator. -/
theorem specScan_foldl (toUtf16 : Bool) (e : Int) (text : List Nat) (u b acc : Int) :
    (specScan text u b).foldl
      (fun acc p =>
        if e = (if toUtf16 then p.1 else p.2) then (if toUtf16 then p.2 else p.1) else acc)
      acc
    = convertOneLoop e toUtf16 text u b acc := by
  induction text generalizing u b acc with
  | nil =>
    cases toUtf16 <;>
      simp [specScan, convertOneLoop_true_nil, convertOneLoop_false_nil]
  | cons c rest ih =>
    have hb : b + 1 + (if 0xFFFF < c then (1 : Int) else 0) =
        b + (if 0xFFFF < c then (1 : Int) else 0) + 1 := by ring
    cases toUtf16 with
    | true =>
      simp only [specScan, List.foldl_cons, hb, convertOneLoop_true_cons]
      simp at ih ⊢
      exact ih _ _ _
    | false =>
      simp only [specScan, List.foldl_cons, hb, convertOneLoop_false_cons]
      simp at ih ⊢
      exact ih _ _ _

/-- Each endpoint of the code's conversion is the spec's endpoint
resolution. -/
theorem convertOne_eq_specResolve (text : List Nat) (d : Bool) (e : Int) :
    convertOne text e d = specResolveEndpoint d e (specScan text 0 0) := by
  rw [specResolveEndpoint, specScan_foldl d e text 0 0 (-1)]
  rfl

/-- A span whose endpoints are the source values of boundaries `i` and `j`
converts to the target values of those boundaries. -/
theorem convert_span_match (text : List Nat) (d : Bool) (i j : Nat)
    (hi : i ≤ text.length) (hj : j ≤ text.length) :
    ConvertIndicesBMPUTF8 text ⟨srcOffset text d i, srcOffset text d j⟩ d =
      ⟨tgtOffset text d i, tgtOffset text d j⟩ := by
  rw [convert_eq_pair]
  simp [convertOne_match text d i hi, convertOne_match text d j hj]

/-!
## The claims
-/

/-- C1: For every decoded UTF-8 text, every input span and both directions,
`ConvertIndicesBMPUTF8` equals the spec's reference definition: one scan with
the codepoint and UTF-16 counters advancing together, and at every iteration
boundary (initial and final included) an input endpoint equal to the source
counter has the target counter recorded into the output endpoint. -/
theorem convert_matches_spec_reference (text : List Nat) (span : CodepointSpan)
    (d : Bool) : ConvertIndicesBMPUTF8 text span d = specConvert text span d := by
  rw [convert_eq_pair]
  simp [specConvert, convertOne_eq_specResolve]

/-- C2: Round-trip law: a span `(a, b)` with `0 ≤ a ≤ b ≤ codepoint length`
converted to the UTF-16 space and back returns `(a, b)`. -/
theorem roundtrip_codepoint_utf16_codepoint (text : List Nat) (a b : Int)
    (h0 : 0 ≤ a) (hab : a ≤ b) (hb : b ≤ (text.length : Int)) :
    ConvertIndicesBMPToUTF8 text (ConvertIndicesUTF8ToBMP text ⟨a, b⟩) = ⟨a, b⟩ := by
  obtain ⟨i, rfl⟩ : ∃ i : Nat, a = (i : Int) :=
    ⟨a.toNat, (Int.toNat_of_nonneg h0).symm⟩
  obtain ⟨j, rfl⟩ : ∃ j : Nat, b = (j : Int) :=
    ⟨b.toNat, (Int.toNat_of_nonneg (le_trans h0 hab)).symm⟩
  have hi : i ≤ text.length := by exact_mod_cast le_trans hab hb
  have hj : j ≤ text.length := by exact_mod_cast hb
  have e1 : ConvertIndicesUTF8ToBMP text ⟨(i : Int), (j : Int)⟩ =
      ⟨utf16Offset text i, utf16Offset text j⟩ := by
    simpa [ConvertIndicesUTF8ToBMP, srcOffset, tgtOffset] using
      convert_span_match text true i j hi hj
  have e2 : ConvertIndicesBMPToUTF8 text ⟨utf16Offset text i, utf16Offset text j⟩ =
      ⟨(i : Int), (j : Int)⟩ := by
    simpa [ConvertIndicesBMPToUTF8, srcOffset, tgtOffset] using
      convert_span_match text false i j hi hj
  rw [e1, e2]

/-- Witness for C2: on the text "a😀b" the codepoint span `(1, 2)` survives a
round trip through the UTF-16 space. -/
theorem roundtrip_codepoint_utf16_codepoint_witness :
    (0 : Int) ≤ 1 ∧ (1 : Int) ≤ 2 ∧
      (2 : Int) ≤ (([97, 128512, 98] : List Nat).length : Int) ∧
      ConvertIndicesBMPToUTF8 [97, 128512, 98]
        (ConvertIndicesUTF8ToBMP [97, 128512, 98] ⟨1, 2⟩) = ⟨1, 2⟩ :=
  ⟨by norm_num, by norm_num, by norm_num,
    roundtrip_codepoint_utf16_codepoint [97, 128512, 98] 1 2 (by norm_num)
      (by norm_num) (by norm_num)⟩

/-- C5: The end-of-text span `(len, len)` resolves in both directions to the
end-of-text value of the target index space, because the endpoint comparison
also runs at the final boundary after the scan. -/
theorem end_of_text_span_resolves (text : List Nat) :
    ConvertIndicesUTF8ToBMP text ⟨(text.length : Int), (text.length : Int)⟩ =
      ⟨utf16Length text, utf16Length text⟩ ∧
    ConvertIndicesBMPToUTF8 text ⟨utf16Length text, utf16Length text⟩ =
      ⟨(text.length : Int), (text.length : Int)⟩ := by
  constructor
  · simpa [ConvertIndicesUTF8ToBMP, srcOffset, tgtOffset, utf16Length] using
      convert_span_match text true text.length text.length le_rfl le_rfl
  · simpa [ConvertIndicesBMPToUTF8, srcOffset, tgtOffset, utf16Length] using
      convert_span_match text false text.length text.length le_rfl le_rfl

/-- C7: Worked example on "a😀b" (codepoints `'a'`, `U+1F600`, `'b'`): the
codepoint span `(1, 2)` converts to the UTF-16 span `(1, 3)` and back. -/
theorem worked_example_emoji :
    ConvertIndicesUTF8ToBMP [97, 128512, 98] ⟨1, 2⟩ = ⟨1, 3⟩ ∧
    ConvertIndicesBMPToUTF8 [97, 128512, 98] ⟨1, 3⟩ = ⟨1, 2⟩ := by
  exact ⟨rfl, rfl⟩

/-- C8: The conversion is pure and deterministic: two calls on equal text,
equal span and equal direction return equal results; the embedding is a total
function of exactly these three inputs, so the result can depend on nothing
else and no outside state is read or written. -/
theorem convert_pure_deterministic (t1 t2 : List Nat) (s1 s2 : CodepointSpan)
    (d1 d2 : Bool) (ht : t1 = t2) (hs : s1 = s2) (hd : d1 = d2) :
    ConvertIndicesBMPUTF8 t1 s1 d1 = ConvertIndicesBMPUTF8 t2 s2 d2 := by
  rw [ht, hs, hd]

/-- Witness for C8: two identical calls on "a😀b" agree. -/
theorem convert_pure_deterministic_witness :
    ConvertIndicesBMPUTF8 [97, 128512, 98] ⟨0, 2⟩ true =
      ConvertIndicesBMPUTF8 [97, 128512, 98] ⟨0, 2⟩ true :=
  convert_pure_deterministic [97, 128512, 98] [97, 128512, 98] ⟨0, 2⟩ ⟨0, 2⟩
    true true rfl rfl rfl

/-- C3 counterexample: on the ASCII-only text "a" the `ToUtf16` direction is
not the identity on the span `(-5, 1)`: the `-5` endpoint comes back as the
sentinel `-1`. -/
theorem ascii_identity_counterexample :
    ConvertIndicesUTF8ToBMP [97] ⟨-5, 1⟩ ≠ ⟨-5, 1⟩ := by decide

/-- C3 amended: for ASCII-only text both directions are the identity on every
span whose endpoints lie within `[0, length]`. -/
theorem ascii_identity_in_range (text : List Nat) (hascii : ∀ c ∈ text, c ≤ 0x7F)
    (a b : Int) (ha0 : 0 ≤ a) (ha1 : a ≤ (text.length : Int))
    (hb0 : 0 ≤ b) (hb1 : b ≤ (text.length : Int)) :
    ConvertIndicesUTF8ToBMP text ⟨a, b⟩ = ⟨a, b⟩ ∧
    ConvertIndicesBMPToUTF8 text ⟨a, b⟩ = ⟨a, b⟩ := by
  have hbmp : ∀ c ∈ text, c ≤ 0xFFFF := fun c hc =>
    le_trans (hascii c hc) (by norm_num)
  obtain ⟨i, rfl⟩ : ∃ i : Nat, a = (i : Int) :=
    ⟨a.toNat, (Int.toNat_of_nonneg ha0).symm⟩
  obtain ⟨j, rfl⟩ : ∃ j : Nat, b = (j : Int) :=
    ⟨b.toNat, (Int.toNat_of_nonneg hb0).symm⟩
  have hi : i ≤ text.length := by exact_mod_cast ha1
  have hj : j ≤ text.length := by exact_mod_cast hb1
  have hoi : utf16Offset text i = i := utf16Offset_of_bmp text hbmp i hi
  have hoj : utf16Offset text j = j := utf16Offset_of_bmp text hbmp j hj
  constructor
  · have := convert_span_match text true i j hi hj
    simpa [ConvertIndicesUTF8ToBMP, srcOffset, tgtOffset, hoi, hoj] using this
  · have := convert_span_match text false i j hi hj
    simpa [ConvertIndicesBMPToUTF8, srcOffset, tgtOffset, hoi, hoj] using this

/-- Witness for the amended C3: on the ASCII text "hi" the in-range span
`(0, 2)` is fixed by both directions. -/
theorem ascii_identity_in_range_witness :
    (∀ c ∈ ([104, 105] : List Nat), c ≤ 0x7F) ∧
      (ConvertIndicesUTF8ToBMP [104, 105] ⟨0, 2⟩ = ⟨0, 2⟩ ∧
        ConvertIndicesBMPToUTF8 [104, 105] ⟨0, 2⟩ = ⟨0, 2⟩) :=
  ⟨by decide,
    ascii_identity_in_range [104, 105] (by decide) 0 2 (by norm_num) (by norm_num)
      (by norm_num) (by norm_num)⟩

/-- C4: An input endpoint that matches no scanned source-counter value — in
particular a negative endpoint or one above the source-space length — yields
`-1` in its output endpoint, while the other endpoint still resolves
independently to its boundary's target value. -/
theorem unmatched_endpoint_stays_unset (text : List Nat) (d : Bool) (a b : Int)
    (ha : a < 0 ∨ srcLen text d < a ∨
      ∀ j : Nat, j ≤ text.length → a ≠ srcOffset text d j) :
    (ConvertIndicesBMPUTF8 text ⟨a, b⟩ d).first = -1 ∧
    ∀ j : Nat, j ≤ text.length → b = srcOffset text d j →
      (ConvertIndicesBMPUTF8 text ⟨a, b⟩ d).second = tgtOffset text d j := by
  have hnm : ∀ j : Nat, j ≤ text.length → a ≠ srcOffset text d j := by
    rcases ha with h | h | h
    · intro j hj
      have := srcOffset_nonneg text d j
      omega
    · intro j hj
      have h1 := srcOffset_mono text d hj
      rw [srcLen] at h
      omega
    · exact h
  constructor
  · rw [convert_eq_pair]
    exact convertOne_nomatch text d a hnm
  · intro j hj heq
    rw [convert_eq_pair]
    show convertOne text b d = tgtOffset text d j
    rw [heq]
    exact convertOne_match text d j hj

/-- Witness for C4: on "abc" the span `(-5, 3)` in the `ToUtf16` direction
yields `-1` for the `-5` endpoint and resolves the `3` endpoint to `3`. -/
theorem unmatched_endpoint_stays_unset_witness :
    (ConvertIndicesBMPUTF8 [97, 98, 99] ⟨-5, 3⟩ true).first = -1 ∧
    (ConvertIndicesBMPUTF8 [97, 98, 99] ⟨-5, 3⟩ true).second = 3 :=
  ⟨(unmatched_endpoint_stays_unset [97, 98, 99] true (-5) 3
      (Or.inl (by norm_num))).1,
    ((unmatched_endpoint_stays_unset [97, 98, 99] true (-5) 3
      (Or.inl (by norm_num))).2 3 (by decide) (by decide)).trans (by decide)⟩

/-- For a text whose only supplementary-plane scalar value sits at codepoint
index `k`, the UTF-16 width of the first `p > k` codepoints is `p + 1`. -/
theorem utf16Offset_single_supp (text : List Nat) (k p : Nat)
    (hex : ∀ i, (hi : i < text.length) → (0xFFFF < text[i] ↔ i = k))
    (hkp : k < p) (hpl : p ≤ text.length) :
    utf16Offset text p = (p : Int) + 1 := by
  induction text generalizing k p with
  | nil => simp at hpl; omega
  | cons c rest ih =>
    cases p with
    | zero => omega
    | succ p =>
      have hpl' : p ≤ rest.length := by simpa using hpl
      cases k with
      | zero =>
        have hc : 0xFFFF < c := by
          have := hex 0 (by simp)
          simpa using this
        have hrest : ∀ x ∈ rest, x ≤ 0xFFFF := by
          intro x hx
          obtain ⟨i, hi, rfl⟩ := List.mem_iff_getElem.mp hx
          have h2 := hex (i + 1) (by simpa using Nat.succ_lt_succ hi)
          simp at h2
          omega
        rw [show utf16Offset (c :: rest) (p + 1) =
            (if 0xFFFF < c then (1 : Int) else 0) + 1 + utf16Offset rest p from rfl,
          if_pos hc, utf16Offset_of_bmp rest hrest p hpl']
        push_cast
        ring
      | succ k =>
        have hc : ¬ 0xFFFF < c := by
          have := hex 0 (by simp)
          simpa using this
        have hex' : ∀ i, (hi : i < rest.length) → (0xFFFF < rest[i] ↔ i = k) := by
          intro i hi
          have := hex (i + 1) (by simpa using Nat.succ_lt_succ hi)
          simpa using this
        rw [show utf16Offset (c :: rest) (p + 1) =
            (if 0xFFFF < c then (1 : Int) else 0) + 1 + utf16Offset rest p from rfl,
          if_neg hc, ih k p hex' (Nat.succ_lt_succ_iff.mp hkp) hpl']
        push_cast
        ring

/-- C6: For a text containing exactly one supplementary-plane character, at
codepoint position `k`, every codepoint position `p` with `k < p ≤ length`
converts to the UTF-16 position `p + 1`. -/
theorem single_supplementary_offset (text : List Nat) (k p : Nat)
    (hex : ∀ i, (hi : i < text.length) → (0xFFFF < text[i] ↔ i = k))
    (hkp : k < p) (hpl : p ≤ text.length) :
    ConvertIndicesUTF8ToBMP text ⟨(p : Int), (p : Int)⟩ =
      ⟨(p : Int) + 1, (p : Int) + 1⟩ := by
  have hoff := utf16Offset_single_supp text k p hex hkp hpl
  have h := convert_span_match text true p p hpl hpl
  simpa [ConvertIndicesUTF8ToBMP, srcOffset, tgtOffset, hoff] using h

/-- Witness for C6: on "a😀b" (supplementary character at codepoint index 1)
the codepoint position 2 converts to UTF-16 position 3. -/
theorem single_supplementary_offset_witness :
    ConvertIndicesUTF8ToBMP [97, 128512, 98] ⟨((2 : Nat) : Int), ((2 : Nat) : Int)⟩ =
      ⟨((2 : Nat) : Int) + 1, ((2 : Nat) : Int) + 1⟩ :=
  single_supplementary_offset [97, 128512, 98] 1 2 (by decide) (by decide) (by decide)

/-- C9: In the `ToCodepoint` direction, the UTF-16 position one past the
start of a supplementary character — the position between the two code units
of its surrogate pair — is never a scanned value of the UTF-16 counter, so a
span endpoint there stays `-1`. -/
theorem mid_surrogate_gap (text : List Nat) (k : Nat)
    (hk : k < text.length) (hsupp : 0xFFFF < text[k]) :
    (∀ j : Nat, j ≤ text.length →
      utf16Offset text k + 1 ≠ utf16Offset text j) ∧
    ConvertIndicesBMPToUTF8 text
      ⟨utf16Offset text k + 1, utf16Offset text k + 1⟩ = ⟨-1, -1⟩ := by
  have hgap : ∀ j : Nat, j ≤ text.length →
      utf16Offset text k + 1 ≠ utf16Offset text j := by
    intro j hj
    rcases le_or_lt j k with h | h
    · have := utf16Offset_mono text h
      omega
    · have hstep := utf16Offset_succ text k hk
      rw [if_pos hsupp] at hstep
      have hmono := utf16Offset_mono text (show k + 1 ≤ j from h)
      omega
  refine ⟨hgap, ?_⟩
  have hnm : convertOne text (utf16Offset text k + 1) false = -1 :=
    convertOne_nomatch text false _ (fun j hj => by
      have := hgap j hj
      simpa [srcOffset] using this)
  rw [ConvertIndicesBMPToUTF8, convert_eq_pair]
  simp [hnm]

/-- Witness for C9: on "a😀b" the UTF-16 position 2 splits the emoji's
surrogate pair and converts to `(-1, -1)`. -/
theorem mid_surrogate_gap_witness :
    (∀ j : Nat, j ≤ ([97, 128512, 98] : List Nat).length →
      utf16Offset [97, 128512, 98] 1 + 1 ≠ utf16Offset [97, 128512, 98] j) ∧
    ConvertIndicesBMPToUTF8 [97, 128512, 98]
      ⟨utf16Offset [97, 128512, 98] 1 + 1, utf16Offset [97, 128512, 98] 1 + 1⟩ =
      ⟨-1, -1⟩ :=
  mid_surrogate_gap [97, 128512, 98] 1 (by decide) (by decide)

/-- C10: The conversion is strictly order-preserving on resolved endpoints:
if `a ≤ b` and both outputs differ from `-1`, then the outputs are ordered,
they are equal exactly when `a = b`, and each lies within `[0, target
length]`. -/
theorem resolved_endpoints_order (text : List Nat) (d : Bool) (a b : Int)
    (hab : a ≤ b)
    (ha : (ConvertIndicesBMPUTF8 text ⟨a, b⟩ d).first ≠ -1)
    (hb : (ConvertIndicesBMPUTF8 text ⟨a, b⟩ d).second ≠ -1) :
    (ConvertIndicesBMPUTF8 text ⟨a, b⟩ d).first ≤
        (ConvertIndicesBMPUTF8 text ⟨a, b⟩ d).second ∧
    ((ConvertIndicesBMPUTF8 text ⟨a, b⟩ d).first =
        (ConvertIndicesBMPUTF8 text ⟨a, b⟩ d).second ↔ a = b) ∧
    (0 ≤ (ConvertIndicesBMPUTF8 text ⟨a, b⟩ d).first ∧
      (ConvertIndicesBMPUTF8 text ⟨a, b⟩ d).first ≤ tgtLen text d) ∧
    (0 ≤ (ConvertIndicesBMPUTF8 text ⟨a, b⟩ d).second ∧
      (ConvertIndicesBMPUTF8 text ⟨a, b⟩ d).second ≤ tgtLen text d) := by
  have ha' : convertOne text a d ≠ -1 := by
    simpa [convert_eq_pair] using ha
  have hb' : convertOne text b d ≠ -1 := by
    simpa [convert_eq_pair] using hb
  obtain ⟨i, hi, hai, hva⟩ := convertOne_resolved text d a ha'
  obtain ⟨j, hj, hbj, hvb⟩ := convertOne_resolved text d b hb'
  have hij : i ≤ j := by
    by_contra hlt
    push_neg at hlt
    have := srcOffset_strictMono text d hlt hi
    omega
  have hiff : (i = j) ↔ (a = b) := by
    constructor
    · intro h
      rw [hai, hbj, h]
    · intro h
      have h' : srcOffset text d i = srcOffset text d j := by
        rw [← hai, ← hbj]; exact h
      rcases Nat.lt_trichotomy i j with hlt | heq | hgt
      · have := srcOffset_strictMono text d hlt hj
        omega
      · exact heq
      · have := srcOffset_strictMono text d hgt hi
        omega
  have htgt : tgtOffset text d i = tgtOffset text d j ↔ i = j := by
    constructor
    · intro h
      rcases Nat.lt_trichotomy i j with hlt | heq | hgt
      · have := tgtOffset_strictMono text d hlt hj
        omega
      · exact heq
      · have := tgtOffset_strictMono text d hgt hi
        omega
    · intro h
      rw [h]
  simp only [convert_eq_pair] at ha hb ⊢
  rw [hva, hvb]
  refine ⟨tgtOffset_mono text d hij, htgt.trans hiff, ⟨tgtOffset_nonneg text d i, ?_⟩,
    ⟨tgtOffset_nonneg text d j, ?_⟩⟩
  · rw [tgtLen]
    exact tgtOffset_mono text d hi
  · rw [tgtLen]
    exact tgtOffset_mono text d hj

/-- Witness for C10: on "a😀b" in the `ToUtf16` direction the span `(1, 3)`
resolves to ordered, in-range outputs. -/
theorem resolved_endpoints_order_witness :
    (ConvertIndicesBMPUTF8 [97, 128512, 98] ⟨1, 3⟩ true).first ≤
        (ConvertIndicesBMPUTF8 [97, 128512, 98] ⟨1, 3⟩ true).second ∧
    ((ConvertIndicesBMPUTF8 [97, 128512, 98] ⟨1, 3⟩ true).first =
        (ConvertIndicesBMPUTF8 [97, 128512, 98] ⟨1, 3⟩ true).second ↔ (1 : Int) = 3) ∧
    (0 ≤ (ConvertIndicesBMPUTF8 [97, 128512, 98] ⟨1, 3⟩ true).first ∧
      (ConvertIndicesBMPUTF8 [97, 128512, 98] ⟨1, 3⟩ true).first ≤
        tgtLen [97, 128512, 98] true) ∧
    (0 ≤ (ConvertIndicesBMPUTF8 [97, 128512, 98] ⟨1, 3⟩ true).second ∧
      (ConvertIndicesBMPUTF8 [97, 128512, 98] ⟨1, 3⟩ true).second ≤
        tgtLen [97, 128512, 98] true) :=
  resolved_endpoints_order [97, 128512, 98] true 1 3 (by norm_num) (by decide)
    (by decide)

end Annotator
